import Mathlib

/-!
Shallow embedding of the MA-VCG edge-computing auction simulator
(`agents.py`, `auction.py`, `environment.py`).  Python floats are
modelled as rationals; `math.exp` is modelled by an abstract function
parameter `mexp` (floating point itself is out of scope, the formulas
are verified over exact arithmetic).  Fallible code paths (Python
exceptions) are modelled with `Option`, `none` standing for an escaped
exception.  Randomised construction steps (`generate_task`,
`EdgeNode.__init__` capacities, topology generation) are modelled as
constructor data: the mechanism under verification consumes their
results.
-/

/-- Modelled from the spec: module `data` (file `data.py`, not present in
the source tree) defines the immutable task record `IoTTask` with fields
task_id, cpu, memory, deadline, data_size, priority (an integer in [1,5],
represented here as a rational). -/
structure IoTTask where
  task_id : String
  cpu : ℚ
  memory : ℚ
  deadline : ℚ
  data_size : ℚ
  priority : ℚ
deriving DecidableEq

/-- Modelled from the spec: module `data` defines `ResourceRequest` with
fields device_id (the consumer's id), task, bid_value. -/
structure ResourceRequest where
  device_id : ℕ
  task : IoTTask
  bid_value : ℚ
deriving DecidableEq

/-- An undirected weighted graph (`networkx.Graph` with `weight` edge
attributes): a list of edges `(u, v, weight)`. -/
structure WGraph where
  edges : List (ℕ × ℕ × ℚ)
deriving DecidableEq

/-- Weight of the edge between `u` and `v`, if present
(`network[u][v]['weight']`). -/
def WGraph.edgeWeight? (g : WGraph) (u v : ℕ) : Option ℚ :=
  (g.edges.find? (fun e => (e.1 = u && e.2.1 = v) || (e.1 = v && e.2.1 = u))).map
    (fun e => e.2.2)

/-- Edge existence test (`network.has_edge(u, v)`). -/
def WGraph.hasEdge (g : WGraph) (u v : ℕ) : Bool :=
  (g.edgeWeight? u v).isSome

/-- Neighbours of `u` with the connecting edge weights. -/
def WGraph.neighbors (g : WGraph) (u : ℕ) : List (ℕ × ℚ) :=
  g.edges.flatMap (fun e =>
    if e.1 = u then [(e.2.1, e.2.2)]
    else if e.2.1 = u then [(e.1, e.2.2)]
    else [])

/-- Total weights of all simple paths from `u` to `t` that avoid
`visited`, by depth-bounded enumeration.  With non-negative weights the
minimum of this list is the shortest weighted path length. -/
def WGraph.pathCosts (g : WGraph) : ℕ → List ℕ → ℕ → ℕ → List ℚ
  | 0, _, _, _ => []
  | fuel + 1, visited, u, t =>
    if u = t then [0]
    else (g.neighbors u).flatMap (fun vw =>
      if visited.contains vw.1 then []
      else (g.pathCosts fuel (u :: visited) vw.1 t).map (fun c => vw.2 + c))

/-- All vertex occurrences of the graph (used only to bound the path
search depth). -/
def WGraph.verts (g : WGraph) : List ℕ :=
  g.edges.flatMap (fun e => [e.1, e.2.1])

/-- Shortest weighted path length
(`nx.shortest_path_length(network, u, t, weight='weight')`); `none`
models the `NetworkXNoPath` exception. -/
def WGraph.shortest_path_length (g : WGraph) (u t : ℕ) : Option ℚ :=
  (g.pathCosts (g.verts.length + 1) [] u t).min?

/-- Source `agents.py`, class `EdgeNode`: a resource provider with a
capacity pool, an availability pool and pricing parameters. -/
structure EdgeNode where
  id : ℕ
  capacity_cpu : ℚ
  capacity_memory : ℚ
  available_cpu : ℚ
  available_memory : ℚ
  base_price_cpu : ℚ
  base_price_memory : ℚ
  energy_price : ℚ
  power_per_cpu : ℚ
deriving DecidableEq

/-- Source `agents.py`, `EdgeNode.__init__` (lines 85-96): available
starts equal to capacity, pricing parameters are the fixed constants;
the randomly drawn capacities are constructor data here. -/
def EdgeNode.init (i : ℕ) (cap_cpu cap_mem : ℚ) : EdgeNode :=
  ⟨i, cap_cpu, cap_mem, cap_cpu, cap_mem, 0.2, 0.05, 0.01, 2.0⟩

/-- Source `agents.py`, `EdgeNode.cost_for_request` (lines 99-126);
`none` models the `None` refusal return. -/
def EdgeNode.cost_for_request (p : EdgeNode) (req : ResourceRequest)
    (network : WGraph) : Option ℚ :=
  let cpu := req.task.cpu
  let mem := req.task.memory
  if cpu > p.available_cpu ∨ mem > p.available_memory then none
  else
    let base := cpu * p.base_price_cpu + mem * p.base_price_memory
    let load := 1 - p.available_cpu / p.capacity_cpu
    let loaded := base * (1 + load ^ 2)
    let energized := loaded + cpu * p.power_per_cpu * p.energy_price
    let delay? :=
      match network.edgeWeight? p.id req.device_id with
      | some w => some w
      | none => network.shortest_path_length p.id req.device_id
    delay?.map (fun delay => energized + delay * 0.1)

/-- Source `agents.py`, `EdgeNode.allocate` (lines 129-131). -/
def EdgeNode.allocate (p : EdgeNode) (req : ResourceRequest) : EdgeNode :=
  { p with
    available_cpu := p.available_cpu - req.task.cpu,
    available_memory := p.available_memory - req.task.memory }

/-- Source `agents.py`, class `IoTDevice`: a resource consumer with a
queue of pending tasks. -/
structure IoTDevice where
  id : ℕ
  dev_type : String
  energy_budget : ℚ
  pending_tasks : List IoTTask
deriving DecidableEq

/-- Source `agents.py`, `IoTDevice.utility_for_task` (lines 58-63), with
`math.exp` modelled by `mexp`. -/
def IoTDevice.utility_for_task (mexp : ℚ → ℚ) (task : IoTTask)
    (expected_completion : ℚ) (energy_cost : ℚ) : ℚ :=
  let time_penalty := mexp (-expected_completion / task.deadline)
  let base := task.priority * (task.cpu + task.memory)
  base * time_penalty - energy_cost

/-- The sequence generated inside `min(...)` at `agents.py` lines 71-74:
edge weights from this device to every provider directly connected to
it. -/
def IoTDevice.connectedWeights (dev : IoTDevice) (network : WGraph)
    (providers : List EdgeNode) : List ℚ :=
  providers.filterMap (fun p =>
    if network.hasEdge dev.id p.id then network.edgeWeight? dev.id p.id else none)

/-- The body of the loop over pending tasks in `IoTDevice.build_requests`
(`agents.py` lines 69-78); `none` models the `ValueError` raised by
`min()` on an empty sequence. -/
def buildLoop (mexp : ℚ → ℚ) (dev : IoTDevice) (network : WGraph)
    (providers : List EdgeNode) : List IoTTask → Option (List ResourceRequest)
  | [] => some []
  | task :: rest =>
    match (dev.connectedWeights network providers).min? with
    | none => none
    | some best_latency =>
      let expected_completion := best_latency + task.cpu / 10
      let energy_cost := best_latency * 0.1
      let utility := IoTDevice.utility_for_task mexp task expected_completion energy_cost
      (buildLoop mexp dev network providers rest).map
        (fun rs => ⟨dev.id, task, utility⟩ :: rs)

/-- Source `agents.py`, `IoTDevice.build_requests` (lines 65-79):
one `ResourceRequest` per pending task; `none` models an escaped
exception. -/
def IoTDevice.build_requests (mexp : ℚ → ℚ) (dev : IoTDevice) (network : WGraph)
    (providers : List EdgeNode) : Option (List ResourceRequest) :=
  buildLoop mexp dev network providers dev.pending_tasks

/-- Source `auction.py` lines 27-31: the feasible `(provider, cost)` bids
for one request. -/
def collectBids (providers : List EdgeNode) (req : ResourceRequest)
    (network : WGraph) : List (EdgeNode × ℚ) :=
  providers.filterMap (fun p =>
    (p.cost_for_request req network).map (fun c => (p, c)))

/-- The ascending cost comparison used as the sort key at `auction.py`
line 36. -/
def bidLE (a b : EdgeNode × ℚ) : Bool :=
  decide (a.2 ≤ b.2)

/-- Source `auction.py` lines 32-39: clear one request.  `none` iff there
are no bids (`len(bids) < 1`, equivalently the sorted bid list is empty);
otherwise the winner is `bids[0]` after the stable ascending sort by cost
and the price is `bids[1][1]` when a second bid exists, else the winner's
own cost. -/
def settle (providers : List EdgeNode) (network : WGraph)
    (req : ResourceRequest) : Option (EdgeNode × ℚ) :=
  match (collectBids providers req network).mergeSort bidLE with
  | [] => none
  | (winner, win_cost) :: tl =>
    some (winner, match tl with
      | [] => win_cost
      | (_, c2) :: _ => c2)

/-- Source `auction.py`, `Auctioneer.run` (lines 18-41): clear each
request independently, returning (allocations, rejections). -/
def Auctioneer.run (requests : List ResourceRequest) (providers : List EdgeNode)
    (network : WGraph) :
    List (ResourceRequest × EdgeNode × ℚ) × List (ResourceRequest × String) :=
  match requests with
  | [] => ([], [])
  | req :: rest =>
    let res := Auctioneer.run rest providers network
    match settle providers network req with
    | none => (res.1, (req, "no provider") :: res.2)
    | some (winner, price) => ((req, winner, price) :: res.1, res.2)

/-- Source `environment.py`, `EdgeComputingSystem.jain_index`
(lines 101-110). -/
def EdgeComputingSystem.jain_index (values : List ℚ) : ℚ :=
  let n := values.length
  if n = 0 then 1
  else
    let s := values.sum
    let sq := (values.map (fun v => v ^ 2)).sum
    if sq = 0 then 1 else s ^ 2 / (n * sq)

/-- The mutable state touched by the allocation-application step of the
simulation loop: the providers, the consumers, and the accumulated
welfare. -/
structure SysState where
  nodes : List EdgeNode
  devices : List IoTDevice
  welfare : ℚ
deriving DecidableEq

/-- Source `environment.py` lines 134-142: apply one allocation — debit
the winner, accumulate welfare, remove the task from the owning device's
queue.  `none` models the uncaught `StopIteration` (no device carries the
request's id) or `ValueError` (the task is not in the device's pending
list). -/
def applyAllocation (st : SysState) (a : ResourceRequest × EdgeNode × ℚ) :
    Option SysState :=
  let req := a.1
  let winner := a.2.1
  let price := a.2.2
  let nodes' := st.nodes.map (fun n => if n.id = winner.id then n.allocate req else n)
  match st.devices.find? (fun d => d.id == req.device_id) with
  | none => none
  | some dev =>
    if req.task ∈ dev.pending_tasks then
      some { nodes := nodes',
             devices := st.devices.map (fun d =>
               if d.id = dev.id then
                 { d with pending_tasks := d.pending_tasks.erase req.task }
               else d),
             welfare := st.welfare + req.bid_value - price }
    else none

/-- The `for req, winner, price in allocations` loop of
`environment.py` lines 134-142, applied in order. -/
def applyAllocations (st : SysState) :
    List (ResourceRequest × EdgeNode × ℚ) → Option SysState
  | [] => some st
  | a :: rest => (applyAllocation st a).bind (fun st' => applyAllocations st' rest)

/-- Step 1 of a round (`environment.py` lines 122-125) minus the random
`generate_task` call: gather `build_requests` output over all devices. -/
def collectRequests (mexp : ℚ → ℚ) (network : WGraph) (providers : List EdgeNode) :
    List IoTDevice → Option (List ResourceRequest)
  | [] => some []
  | d :: ds =>
    (IoTDevice.build_requests mexp d network providers).bind (fun rs =>
      (collectRequests mexp network providers ds).map (fun rest => rs ++ rest))

/-- One round of `EdgeComputingSystem.run` (`environment.py` lines
120-142), with the devices' pending queues (including the freshly
generated random task) taken as input state: build all requests, clear
the batch, apply the allocations in order. -/
def runRound (mexp : ℚ → ℚ) (st : SysState) (network : WGraph) :
    Option (SysState × List (ResourceRequest × EdgeNode × ℚ) ×
            List (ResourceRequest × String)) :=
  (collectRequests mexp network st.nodes st.devices).bind (fun all_requests =>
    let ar := Auctioneer.run all_requests st.nodes network
    (applyAllocations st ar.1).map (fun st' => (st', ar.1, ar.2)))
/-! ### Jain index: auxiliary algebra -/

/-- All elements of a list are pairwise equal. -/
def allEq (l : List ℚ) : Prop := ∀ x ∈ l, ∀ y ∈ l, x = y

/-- Sum of squares of a list. -/
def sumSq (l : List ℚ) : ℚ := (l.map (fun v => v ^ 2)).sum

/-- Cauchy-Schwarz gap `n·Σv² − (Σv)²`. -/
def csGap (l : List ℚ) : ℚ := l.length * sumSq l - l.sum ^ 2

lemma sumSq_cons (x : ℚ) (l : List ℚ) : sumSq (x :: l) = x ^ 2 + sumSq l := by
  simp [sumSq]

lemma shifted_sum (x : ℚ) (l : List ℚ) :
    (l.map (fun v => (v - x) ^ 2)).sum = sumSq l - 2 * x * l.sum + l.length * x ^ 2 := by
  induction l with
  | nil => simp [sumSq]
  | cons a l ih =>
    simp only [List.map_cons, List.sum_cons, ih, sumSq_cons, List.length_cons]
    push_cast
    ring

lemma shifted_sum_nonneg (x : ℚ) (l : List ℚ) :
    0 ≤ (l.map (fun v => (v - x) ^ 2)).sum := by
  apply List.sum_nonneg
  intro a ha
  obtain ⟨v, _, rfl⟩ := List.mem_map.mp ha
  positivity

lemma shifted_sum_eq_zero_iff (x : ℚ) (l : List ℚ) :
    (l.map (fun v => (v - x) ^ 2)).sum = 0 ↔ ∀ v ∈ l, v = x := by
  induction l with
  | nil => simp
  | cons a l ih =>
    simp only [List.map_cons, List.sum_cons, List.mem_cons]
    constructor
    · intro h
      have h1 : (0:ℚ) ≤ (a - x) ^ 2 := sq_nonneg _
      have h2 : (0:ℚ) ≤ (l.map (fun v => (v - x) ^ 2)).sum := shifted_sum_nonneg x l
      have ha : (a - x) ^ 2 = 0 := by linarith
      have ha' : a = x := by
        have := pow_eq_zero_iff (n := 2) (by norm_num) |>.mp ha
        linarith [sub_eq_zero.mp this]
      intro v hv
      rcases hv with rfl | hv
      · exact ha'
      · exact (ih.mp (by linarith)) v hv
    · intro h
      have ha : a = x := h a (Or.inl rfl)
      have hl : (l.map (fun v => (v - x) ^ 2)).sum = 0 :=
        ih.mpr (fun v hv => h v (Or.inr hv))
      simp [ha, hl]

lemma csGap_cons (x : ℚ) (l : List ℚ) :
    csGap (x :: l) = csGap l + (l.map (fun v => (v - x) ^ 2)).sum := by
  simp only [csGap, sumSq_cons, List.sum_cons, List.length_cons, shifted_sum]
  push_cast
  ring

lemma csGap_nonneg (l : List ℚ) : 0 ≤ csGap l := by
  induction l with
  | nil => simp [csGap, sumSq]
  | cons x l ih =>
    have := shifted_sum_nonneg x l
    rw [csGap_cons]
    linarith

lemma allEq_cons (x : ℚ) (l : List ℚ) : allEq (x :: l) ↔ ∀ v ∈ l, v = x := by
  constructor
  · intro h v hv
    exact h v (List.mem_cons_of_mem x hv) x (List.mem_cons_self x l)
  · intro h a ha b hb
    have ha' : a = x ∨ a ∈ l := List.mem_cons.mp ha
    have hb' : b = x ∨ b ∈ l := List.mem_cons.mp hb
    rcases ha' with ha' | ha' <;> rcases hb' with hb' | hb'
    · rw [ha', hb']
    · rw [ha', h b hb']
    · rw [h a ha', hb']
    · rw [h a ha', h b hb']

lemma csGap_eq_zero_iff (l : List ℚ) : csGap l = 0 ↔ allEq l := by
  induction l with
  | nil =>
    simp [csGap, sumSq, allEq]
  | cons x l ih =>
    rw [csGap_cons, allEq_cons]
    have h1 := csGap_nonneg l
    have h2 := shifted_sum_nonneg x l
    constructor
    · intro h
      have hs : (l.map (fun v => (v - x) ^ 2)).sum = 0 := by linarith
      exact (shifted_sum_eq_zero_iff x l).mp hs
    · intro h
      have hg : csGap l = 0 := ih.mpr (by
        intro a ha b hb
        rw [h a ha, h b hb])
      have hs : (l.map (fun v => (v - x) ^ 2)).sum = 0 :=
        (shifted_sum_eq_zero_iff x l).mpr h
      linarith

lemma sumSq_nonneg (l : List ℚ) : 0 ≤ sumSq l := by
  apply List.sum_nonneg
  intro a ha
  obtain ⟨v, _, rfl⟩ := List.mem_map.mp ha
  positivity

lemma sumSq_eq_zero_iff (l : List ℚ) : sumSq l = 0 ↔ ∀ v ∈ l, v = 0 := by
  have := shifted_sum_eq_zero_iff 0 l
  simpa [sumSq] using this
lemma jain_index_eq (v : List ℚ) :
    EdgeComputingSystem.jain_index v =
      if v.length = 0 then 1
      else if sumSq v = 0 then 1
      else v.sum ^ 2 / (v.length * sumSq v) := by
  simp [EdgeComputingSystem.jain_index, sumSq]

/-- C4: the claim's "Jain(v) = 1 iff all nonzero entries of v are equal"
fails on the vector [0, 2]: its nonzero entries are all equal, yet the
code returns 1/2. -/
theorem C4_jain_counterexample :
    (∀ x ∈ [(0 : ℚ), 2], 0 ≤ x) ∧
    (∀ x ∈ [(0 : ℚ), 2], x ≠ 0 → x = 2) ∧
    EdgeComputingSystem.jain_index [0, 2] = 1 / 2 ∧
    EdgeComputingSystem.jain_index [0, 2] ≠ 1 := by
  refine ⟨by decide, by decide, ?_, ?_⟩ <;> norm_num [jain_index_eq, sumSq]

/-- C4 (amended): for every non-negative vector v, 0 < jain_index v ≤ 1;
jain_index v = 1 iff all entries of v are equal (not merely the nonzero
ones); jain_index is 1 by convention for the empty and for the all-zero
vector, and is (Σv)² / (n·Σv²) otherwise. -/
theorem C4_jain_bounds (v : List ℚ) (hv : ∀ x ∈ v, 0 ≤ x) :
    0 < EdgeComputingSystem.jain_index v ∧
    EdgeComputingSystem.jain_index v ≤ 1 ∧
    (EdgeComputingSystem.jain_index v = 1 ↔ ∀ x ∈ v, ∀ y ∈ v, x = y) ∧
    EdgeComputingSystem.jain_index [] = 1 ∧
    ((v.map (fun x => x ^ 2)).sum = 0 → EdgeComputingSystem.jain_index v = 1) ∧
    ((v.map (fun x => x ^ 2)).sum ≠ 0 → v ≠ [] →
      EdgeComputingSystem.jain_index v =
        v.sum ^ 2 / (v.length * (v.map (fun x => x ^ 2)).sum)) := by
  have hnil1 : EdgeComputingSystem.jain_index [] = 1 := by simp [jain_index_eq]
  by_cases hnil : v = []
  · subst hnil
    refine ⟨by simp [jain_index_eq], by simp [jain_index_eq], ?_, hnil1, ?_, ?_⟩
    · simp [jain_index_eq]
    · intro _; exact hnil1
    · intro _ h; exact absurd rfl h
  · have hlen : v.length ≠ 0 := fun h => hnil (List.length_eq_zero.mp h)
    by_cases hsq : sumSq v = 0
    · have hall : ∀ x ∈ v, x = 0 := (sumSq_eq_zero_iff v).mp hsq
      have hj : EdgeComputingSystem.jain_index v = 1 := by
        rw [jain_index_eq, if_neg hlen, if_pos hsq]
      refine ⟨by rw [hj]; norm_num, by rw [hj], ?_, hnil1, fun _ => hj, ?_⟩
      · rw [hj]
        simp only [eq_self_iff_true, true_iff]
        intro x hx y hy
        rw [hall x hx, hall y hy]
      · intro h _
        exact absurd (by simpa [sumSq] using hsq) h
    · have hsqpos : 0 < sumSq v := lt_of_le_of_ne (sumSq_nonneg v) (Ne.symm hsq)
      have hnpos : (0 : ℚ) < v.length := by
        have := Nat.pos_of_ne_zero hlen
        exact_mod_cast this
      have hdenom : (0 : ℚ) < v.length * sumSq v := mul_pos hnpos hsqpos
      have hspos : 0 < v.sum := by
        have hex : ∃ x ∈ v, x ≠ 0 := by
          by_contra hc
          push_neg at hc
          exact hsq ((sumSq_eq_zero_iff v).mpr hc)
        obtain ⟨x, hx, hxne⟩ := hex
        have hxpos : 0 < x := lt_of_le_of_ne (hv x hx) (Ne.symm hxne)
        have hle : x ≤ v.sum := List.single_le_sum hv x hx
        linarith
      have hj : EdgeComputingSystem.jain_index v = v.sum ^ 2 / (v.length * sumSq v) := by
        rw [jain_index_eq, if_neg hlen, if_neg hsq]
      have hgap := csGap_nonneg v
      have hgapdef : csGap v = v.length * sumSq v - v.sum ^ 2 := rfl
      refine ⟨?_, ?_, ?_, hnil1, ?_, ?_⟩
      · rw [hj]
        exact div_pos (by positivity) hdenom
      · rw [hj]
        rw [div_le_one hdenom]
        linarith
      · rw [hj]
        rw [div_eq_one_iff_eq (ne_of_gt hdenom)]
        have : v.sum ^ 2 = v.length * sumSq v ↔ csGap v = 0 := by
          constructor <;> intro h <;> [linarith [hgapdef]; linarith [hgapdef]]
        rw [this, csGap_eq_zero_iff]
        exact Iff.rfl
      · intro h
        exact absurd (by simpa [sumSq] using h) hsq
      · intro _ _
        rw [hj]
        simp [sumSq]

/-- Witness for C4_jain_bounds at the concrete vector [1, 2]. -/
theorem C4_jain_bounds_witness :
    (∀ x ∈ [(1 : ℚ), 2], 0 ≤ x) ∧
    (0 < EdgeComputingSystem.jain_index [(1 : ℚ), 2] ∧
     EdgeComputingSystem.jain_index [(1 : ℚ), 2] ≤ 1 ∧
     (EdgeComputingSystem.jain_index [(1 : ℚ), 2] = 1 ↔
       ∀ x ∈ [(1 : ℚ), 2], ∀ y ∈ [(1 : ℚ), 2], x = y) ∧
     EdgeComputingSystem.jain_index [] = 1 ∧
     (([(1 : ℚ), 2].map (fun x => x ^ 2)).sum = 0 →
       EdgeComputingSystem.jain_index [(1 : ℚ), 2] = 1) ∧
     (([(1 : ℚ), 2].map (fun x => x ^ 2)).sum ≠ 0 → [(1 : ℚ), 2] ≠ ([] : List ℚ) →
       EdgeComputingSystem.jain_index [(1 : ℚ), 2] =
         List.sum [(1 : ℚ), 2] ^ 2 /
           (([(1 : ℚ), 2] : List ℚ).length * ([(1 : ℚ), 2].map (fun x => x ^ 2)).sum))) :=
  ⟨by decide, C4_jain_bounds [1, 2] (by decide)⟩
/-! ### Graph lemmas for the provider cost model -/

lemma min?_spec {l : List ℚ} {a : ℚ} (h : l.min? = some a) :
    a ∈ l ∧ ∀ b ∈ l, a ≤ b := by
  have anti : Std.Antisymm (fun x y : ℚ => x ≤ y) := by
    constructor
    intro a b h1 h2
    exact le_antisymm h1 h2
  exact (@List.min?_eq_some_iff ℚ a _ _ anti (fun x => le_refl x)
    (fun x y => min_choice x y) (fun x y z => le_min_iff) l).mp h

lemma neighbors_weight_mem {g : WGraph} {v u : ℕ} {w : ℚ}
    (h : (v, w) ∈ g.neighbors u) : ∃ e ∈ g.edges, w = e.2.2 := by
  obtain ⟨e, he, hin⟩ := List.mem_flatMap.mp h
  refine ⟨e, he, ?_⟩
  split at hin
  · exact congrArg Prod.snd (List.mem_singleton.mp hin)
  · split at hin
    · exact congrArg Prod.snd (List.mem_singleton.mp hin)
    · exact absurd hin (List.not_mem_nil _)

lemma edgeWeight?_find {g : WGraph} {u v : ℕ} {w : ℚ}
    (h : g.edgeWeight? u v = some w) :
    ∃ e ∈ g.edges, e.2.2 = w ∧ ((e.1 = u ∧ e.2.1 = v) ∨ (e.1 = v ∧ e.2.1 = u)) := by
  unfold WGraph.edgeWeight? at h
  obtain ⟨e, hf, hw⟩ := Option.map_eq_some'.mp h
  have hmem := List.mem_of_find?_eq_some hf
  have hpred := List.find?_some hf
  simp only [Bool.or_eq_true, Bool.and_eq_true, decide_eq_true_eq] at hpred
  exact ⟨e, hmem, hw, hpred⟩

lemma mem_neighbors_of_edgeWeight {g : WGraph} {u v : ℕ} {w : ℚ}
    (h : g.edgeWeight? u v = some w) : ∃ w', (v, w') ∈ g.neighbors u := by
  obtain ⟨e, he, hw, hor⟩ := edgeWeight?_find h
  refine ⟨e.2.2, List.mem_flatMap.mpr ⟨e, he, ?_⟩⟩
  rcases hor with ⟨h1, h2⟩ | ⟨h1, h2⟩
  · rw [if_pos h1, h2]
    exact List.mem_singleton.mpr rfl
  · by_cases hvu : e.1 = u
    · rw [if_pos hvu, h2]
      have hv : v = u := by rw [← h1, hvu]
      rw [hv]
      exact List.mem_singleton.mpr rfl
    · rw [if_neg hvu, if_pos h2, h1]
      exact List.mem_singleton.mpr rfl

lemma pathCosts_nonneg {g : WGraph} (hw : ∀ e ∈ g.edges, 0 ≤ e.2.2) :
    ∀ (fuel : ℕ) (visited : List ℕ) (u t : ℕ), ∀ c ∈ g.pathCosts fuel visited u t, 0 ≤ c := by
  intro fuel
  induction fuel with
  | zero => intro _ _ _ c hc; exact absurd hc (List.not_mem_nil c)
  | succ fuel ih =>
    intro visited u t c hc
    rw [WGraph.pathCosts] at hc
    by_cases hut : u = t
    · rw [if_pos hut] at hc
      have : c = 0 := List.mem_singleton.mp hc
      rw [this]
    · rw [if_neg hut] at hc
      obtain ⟨vw, hvw, hin⟩ := List.mem_flatMap.mp hc
      by_cases hvis : visited.contains vw.1 = true
      · rw [if_pos hvis] at hin
        exact absurd hin (List.not_mem_nil c)
      · rw [if_neg hvis] at hin
        obtain ⟨c', hc', hsum⟩ := List.mem_map.mp hin
        have h1 : 0 ≤ vw.2 := by
          obtain ⟨e, he, hwe⟩ := neighbors_weight_mem (show (vw.1, vw.2) ∈ g.neighbors u from hvw)
          rw [hwe]
          exact hw e he
        have h2 : 0 ≤ c' := ih (u :: visited) vw.1 t c' hc'
        rw [← hsum]
        linarith

lemma shortest_path_length_nonneg {g : WGraph} (hw : ∀ e ∈ g.edges, 0 ≤ e.2.2)
    {u t : ℕ} {d : ℚ} (h : g.shortest_path_length u t = some d) : 0 ≤ d := by
  unfold WGraph.shortest_path_length at h
  exact pathCosts_nonneg hw _ _ _ _ d (min?_spec h).1

lemma edgeWeight?_nonneg {g : WGraph} (hw : ∀ e ∈ g.edges, 0 ≤ e.2.2)
    {u v : ℕ} {w : ℚ} (h : g.edgeWeight? u v = some w) : 0 ≤ w := by
  obtain ⟨e, he, hew, _⟩ := edgeWeight?_find h
  rw [← hew]
  exact hw e he

lemma shortest_path_length_isSome_of_edge {g : WGraph} {u v : ℕ} {w : ℚ}
    (h : g.edgeWeight? u v = some w) : (g.shortest_path_length u v).isSome := by
  rw [WGraph.shortest_path_length]
  rw [Option.isSome_iff_ne_none, Ne, List.min?_eq_none_iff]
  by_cases huv : u = v
  · subst huv
    rw [WGraph.pathCosts, if_pos rfl]
    simp
  · obtain ⟨w', hn⟩ := mem_neighbors_of_edgeWeight h
    obtain ⟨e, he, _, _⟩ := edgeWeight?_find h
    obtain ⟨a, rest, hrest⟩ : ∃ a rest, g.edges = a :: rest := by
      cases hel : g.edges with
      | nil => rw [hel] at he; exact absurd he (List.not_mem_nil e)
      | cons a rest => exact ⟨a, rest, rfl⟩
    have hverts : ∃ k, g.verts.length = k + 2 := by
      refine ⟨(rest.flatMap (fun e => [e.1, e.2.1])).length, ?_⟩
      rw [WGraph.verts, hrest]
      simp only [List.flatMap_cons, List.length_append, List.length_cons, List.length_nil]
      omega
    obtain ⟨k, hk⟩ := hverts
    rw [hk]
    intro hnil
    have hmem : w' + 0 ∈ g.pathCosts (k + 2 + 1) [] u v := by
      rw [WGraph.pathCosts, if_neg huv]
      refine List.mem_flatMap.mpr ⟨(v, w'), hn, ?_⟩
      have hc : (([] : List ℕ).contains v) = false := rfl
      rw [if_neg (by rw [hc]; exact Bool.false_ne_true)]
      refine List.mem_map.mpr ⟨0, ?_, rfl⟩
      rw [WGraph.pathCosts, if_pos rfl]
      exact List.mem_singleton.mpr rfl
    rw [hnil] at hmem
    exact absurd hmem (List.not_mem_nil _)

/-- The provider cost formula as stated in spec section 4.2:
base·(1+load²) + cpu_demand·power_per_cpu·energy_price + distance·0.1
with base = cpu·base_price_cpu + memory·base_price_memory and
load = 1 − available.cpu/capacity.cpu. -/
def costFormula (p : EdgeNode) (req : ResourceRequest) (distance : ℚ) : ℚ :=
  (req.task.cpu * p.base_price_cpu + req.task.memory * p.base_price_memory) *
    (1 + (1 - p.available_cpu / p.capacity_cpu) ^ 2) +
  req.task.cpu * p.power_per_cpu * p.energy_price + distance * 0.1

lemma cost_for_request_eq (p : EdgeNode) (req : ResourceRequest) (g : WGraph) :
    p.cost_for_request req g =
      if req.task.cpu > p.available_cpu ∨ req.task.memory > p.available_memory then none
      else
        (match g.edgeWeight? p.id req.device_id with
          | some w => some w
          | none => g.shortest_path_length p.id req.device_id).map
          (fun delay => costFormula p req delay) := rfl
lemma cost_for_request_direct {p : EdgeNode} {req : ResourceRequest} {g : WGraph} {w : ℚ}
    (hew : g.edgeWeight? p.id req.device_id = some w) :
    p.cost_for_request req g =
      if req.task.cpu > p.available_cpu ∨ req.task.memory > p.available_memory then none
      else some (costFormula p req w) := by
  rw [cost_for_request_eq, hew]
  rfl

lemma cost_for_request_indirect {p : EdgeNode} {req : ResourceRequest} {g : WGraph}
    (hew : g.edgeWeight? p.id req.device_id = none) :
    p.cost_for_request req g =
      if req.task.cpu > p.available_cpu ∨ req.task.memory > p.available_memory then none
      else (g.shortest_path_length p.id req.device_id).map (fun delay => costFormula p req delay) := by
  rw [cost_for_request_eq, hew]

/-- C5: cost_for_request refuses (returns no bid) exactly when
cpu_demand > available.cpu, or memory_demand > available.memory, or no
path exists between provider and consumer; otherwise it returns
base·(1+load²) + cpu_demand·power_per_cpu·energy_price + distance·0.1
with base = cpu·base_price_cpu + memory·base_price_memory,
load = 1 − available.cpu/capacity.cpu, and distance the direct edge
weight when a direct edge exists, else the shortest weighted path
length; for positive demands, non-negative prices and non-negative edge
weights the returned cost is never negative. -/
theorem C5_cost_model (p : EdgeNode) (req : ResourceRequest) (g : WGraph) :
    (p.cost_for_request req g = none ↔
      (req.task.cpu > p.available_cpu ∨ req.task.memory > p.available_memory ∨
        g.shortest_path_length p.id req.device_id = none)) ∧
    (∀ w, ¬ req.task.cpu > p.available_cpu → ¬ req.task.memory > p.available_memory →
      g.edgeWeight? p.id req.device_id = some w →
      p.cost_for_request req g = some (costFormula p req w)) ∧
    (∀ d, ¬ req.task.cpu > p.available_cpu → ¬ req.task.memory > p.available_memory →
      g.edgeWeight? p.id req.device_id = none →
      g.shortest_path_length p.id req.device_id = some d →
      p.cost_for_request req g = some (costFormula p req d)) ∧
    (∀ c, 0 < req.task.cpu → 0 < req.task.memory →
      0 ≤ p.base_price_cpu → 0 ≤ p.base_price_memory →
      0 ≤ p.energy_price → 0 ≤ p.power_per_cpu →
      (∀ e ∈ g.edges, 0 ≤ e.2.2) →
      p.cost_for_request req g = some c → 0 ≤ c) := by
  refine ⟨?_, ?_, ?_, ?_⟩
  · by_cases hd : req.task.cpu > p.available_cpu ∨ req.task.memory > p.available_memory
    · rw [cost_for_request_eq, if_pos hd]
      constructor
      · intro _
        rcases hd with h | h
        · exact Or.inl h
        · exact Or.inr (Or.inl h)
      · intro _
        rfl
    · push_neg at hd
      cases hew : g.edgeWeight? p.id req.device_id with
      | some w =>
        have hs := shortest_path_length_isSome_of_edge hew
        rw [cost_for_request_direct hew, if_neg (by push_neg; exact hd)]
        constructor
        · intro h
          exact absurd h (Option.some_ne_none _)
        · rintro (h | h | h)
          · exact absurd h (not_lt.mpr hd.1)
          · exact absurd h (not_lt.mpr hd.2)
          · rw [h] at hs
            exact absurd hs (by simp)
      | none =>
        rw [cost_for_request_indirect hew, if_neg (by push_neg; exact hd)]
        rw [Option.map_eq_none']
        constructor
        · intro h
          exact Or.inr (Or.inr h)
        · rintro (h | h | h)
          · exact absurd h (not_lt.mpr hd.1)
          · exact absurd h (not_lt.mpr hd.2)
          · exact h
  · intro w h1 h2 hew
    rw [cost_for_request_direct hew, if_neg (not_or.mpr ⟨h1, h2⟩)]
  · intro d h1 h2 hew hsp
    rw [cost_for_request_indirect hew, if_neg (not_or.mpr ⟨h1, h2⟩), hsp]
    rfl
  · intro c hcpu hmem hbp hbm hep hpp hwts hsome
    have key : ∀ delay : ℚ, 0 ≤ delay → 0 ≤ costFormula p req delay := by
      intro delay hdel
      unfold costFormula
      have hb : 0 ≤ req.task.cpu * p.base_price_cpu + req.task.memory * p.base_price_memory :=
        add_nonneg (mul_nonneg (le_of_lt hcpu) hbp) (mul_nonneg (le_of_lt hmem) hbm)
      have hl : (0 : ℚ) ≤ 1 + (1 - p.available_cpu / p.capacity_cpu) ^ 2 := by positivity
      have he : 0 ≤ req.task.cpu * p.power_per_cpu * p.energy_price :=
        mul_nonneg (mul_nonneg (le_of_lt hcpu) hpp) hep
      have hdd : 0 ≤ delay * 0.1 := mul_nonneg hdel (by norm_num)
      have hbase := mul_nonneg hb hl
      linarith
    cases hew : g.edgeWeight? p.id req.device_id with
    | some w =>
      rw [cost_for_request_direct hew] at hsome
      by_cases hd : req.task.cpu > p.available_cpu ∨ req.task.memory > p.available_memory
      · rw [if_pos hd] at hsome
        exact absurd hsome (Option.noConfusion)
      · rw [if_neg hd, Option.some.injEq] at hsome
        rw [← hsome]
        exact key w (edgeWeight?_nonneg hwts hew)
    | none =>
      rw [cost_for_request_indirect hew] at hsome
      by_cases hd : req.task.cpu > p.available_cpu ∨ req.task.memory > p.available_memory
      · rw [if_pos hd] at hsome
        exact absurd hsome (Option.noConfusion)
      · rw [if_neg hd] at hsome
        obtain ⟨d, hsp, hc⟩ := Option.map_eq_some'.mp hsome
        rw [← hc]
        exact key d (shortest_path_length_nonneg hwts hsp)

/-- Witness for C5_cost_model at the concrete end-to-end scenario of
spec section 8: capacity (10, 10), task demands (2, 2), direct edge of
weight 1; the returned cost is 16/25 = 0.64. -/
theorem C5_cost_model_witness :
    ((EdgeNode.init 0 10 10).cost_for_request ⟨1, ⟨"e", 2, 2, 2, 1, 3⟩, 5⟩ ⟨[(1, 0, 1)]⟩ =
      some (costFormula (EdgeNode.init 0 10 10) ⟨1, ⟨"e", 2, 2, 2, 1, 3⟩, 5⟩ 1)) ∧
    costFormula (EdgeNode.init 0 10 10) ⟨1, ⟨"e", 2, 2, 2, 1, 3⟩, 5⟩ 1 = 16 / 25 ∧
    (0 : ℚ) ≤ 16 / 25 := by
  refine ⟨(C5_cost_model _ _ _).2.1 1 (by with_unfolding_all decide)
    (by with_unfolding_all decide) (by with_unfolding_all decide), by with_unfolding_all decide, ?_⟩
  exact (C5_cost_model (EdgeNode.init 0 10 10) ⟨1, ⟨"e", 2, 2, 2, 1, 3⟩, 5⟩ ⟨[(1, 0, 1)]⟩).2.2.2
    (16 / 25) (by with_unfolding_all decide) (by with_unfolding_all decide)
    (by with_unfolding_all decide) (by with_unfolding_all decide) (by with_unfolding_all decide)
    (by with_unfolding_all decide) (by with_unfolding_all decide) (by with_unfolding_all decide)
/-! ### Auction lemmas -/

lemma bidLE_trans : ∀ a b c : EdgeNode × ℚ,
    bidLE a b = true → bidLE b c = true → bidLE a c = true := by
  intro a b c hab hbc
  simp only [bidLE, decide_eq_true_eq] at hab hbc ⊢
  exact le_trans hab hbc

lemma bidLE_total : ∀ a b : EdgeNode × ℚ, (bidLE a b || bidLE b a) = true := by
  intro a b
  simp only [bidLE, Bool.or_eq_true, decide_eq_true_eq]
  exact le_total a.2 b.2

lemma mergeSort_bids_sorted (l : List (EdgeNode × ℚ)) :
    List.Pairwise (fun a b => bidLE a b = true) (l.mergeSort bidLE) :=
  List.sorted_mergeSort bidLE_trans bidLE_total l

lemma collectBids_mem {providers : List EdgeNode} {req : ResourceRequest} {g : WGraph}
    {p : EdgeNode} {c : ℚ} :
    (p, c) ∈ collectBids providers req g ↔
      p ∈ providers ∧ p.cost_for_request req g = some c := by
  unfold collectBids
  rw [List.mem_filterMap]
  constructor
  · rintro ⟨a, ha, hfa⟩
    obtain ⟨c', hc', heq⟩ := Option.map_eq_some'.mp hfa
    have h1 : a = p := congrArg Prod.fst heq
    have h2 : c' = c := congrArg Prod.snd heq
    rw [h1] at ha hc'
    rw [h2] at hc'
    exact ⟨ha, hc'⟩
  · rintro ⟨hp, hc⟩
    exact ⟨p, hp, by rw [hc]; rfl⟩

lemma collectBids_eq_nil_iff {providers : List EdgeNode} {req : ResourceRequest} {g : WGraph} :
    collectBids providers req g = [] ↔
      ∀ p ∈ providers, p.cost_for_request req g = none := by
  unfold collectBids
  rw [List.filterMap_eq_nil_iff]
  constructor
  · intro h p hp
    have hh := h p hp
    cases hcp : p.cost_for_request req g with
    | none => rfl
    | some c =>
      rw [hcp] at hh
      exact absurd hh (by simp)
  · intro h p hp
    rw [h p hp]
    rfl

lemma mergeSort_bids_nil_iff {l : List (EdgeNode × ℚ)} :
    l.mergeSort bidLE = [] ↔ l = [] := by
  constructor
  · intro h
    have hperm := List.mergeSort_perm l bidLE
    rw [h] at hperm
    exact hperm.symm.eq_nil
  · intro h
    rw [h]
    simp

lemma settle_eq_none_iff {providers : List EdgeNode} {g : WGraph} {req : ResourceRequest} :
    settle providers g req = none ↔ collectBids providers req g = [] := by
  unfold settle
  cases hs : (collectBids providers req g).mergeSort bidLE with
  | nil =>
    simp only [true_iff]
    exact mergeSort_bids_nil_iff.mp hs
  | cons hd tl =>
    constructor
    · intro h
      exact absurd h (by simp)
    · intro h
      have h2 := mergeSort_bids_nil_iff.mpr h
      rw [hs] at h2
      exact absurd h2 (List.cons_ne_nil hd tl)

lemma settle_some_sorted {providers : List EdgeNode} {g : WGraph} {req : ResourceRequest}
    {w : EdgeNode} {pr : ℚ} (h : settle providers g req = some (w, pr)) :
    ∃ c tl, (collectBids providers req g).mergeSort bidLE = (w, c) :: tl ∧
      pr = (match tl with | [] => c | (_, c2) :: _ => c2) := by
  unfold settle at h
  cases hs : (collectBids providers req g).mergeSort bidLE with
  | nil =>
    rw [hs] at h
    exact absurd h (by simp)
  | cons hd tl =>
    cases hd with
    | mk w' c =>
      rw [hs] at h
      simp only [Option.some.injEq, Prod.mk.injEq] at h
      refine ⟨c, tl, ?_, h.2.symm⟩
      rw [h.1]

lemma auction_alloc_mem {requests : List ResourceRequest} {providers : List EdgeNode}
    {g : WGraph} {req : ResourceRequest} {w : EdgeNode} {pr : ℚ} :
    (req, w, pr) ∈ (Auctioneer.run requests providers g).1 ↔
      req ∈ requests ∧ settle providers g req = some (w, pr) := by
  induction requests with
  | nil => simp [Auctioneer.run]
  | cons r rest ih =>
    rw [Auctioneer.run]
    cases hs : settle providers g r with
    | none =>
      simp only
      rw [ih]
      constructor
      · rintro ⟨hm, hset⟩
        exact ⟨List.mem_cons_of_mem _ hm, hset⟩
      · rintro ⟨hm, hset⟩
        rcases List.mem_cons.mp hm with rfl | hm
        · rw [hs] at hset
          exact absurd hset (by simp)
        · exact ⟨hm, hset⟩
    | some wp =>
      cases wp with
      | mk w' pr' =>
        simp only
        rw [List.mem_cons, ih]
        constructor
        · rintro (heq | ⟨hm, hset⟩)
          · have h1 : req = r := congrArg Prod.fst heq
            have h2 : w = w' := congrArg (fun x => x.2.1) heq
            have h3 : pr = pr' := congrArg (fun x => x.2.2) heq
            rw [h1, h2, h3]
            exact ⟨List.mem_cons_self r rest, hs⟩
          · exact ⟨List.mem_cons_of_mem _ hm, hset⟩
        · rintro ⟨hm, hset⟩
          rcases List.mem_cons.mp hm with rfl | hm
          · rw [hs] at hset
            simp only [Option.some.injEq] at hset
            left
            rw [hset]
          · right
            exact ⟨hm, hset⟩

lemma auction_rej_mem {requests : List ResourceRequest} {providers : List EdgeNode}
    {g : WGraph} {req : ResourceRequest} {s : String} :
    (req, s) ∈ (Auctioneer.run requests providers g).2 ↔
      req ∈ requests ∧ settle providers g req = none ∧ s = "no provider" := by
  induction requests with
  | nil => simp [Auctioneer.run]
  | cons r rest ih =>
    rw [Auctioneer.run]
    cases hs : settle providers g r with
    | none =>
      simp only
      rw [List.mem_cons, ih]
      constructor
      · rintro (heq | ⟨hm, hset, hstr⟩)
        · have h1 : req = r := congrArg Prod.fst heq
          have h2 : s = "no provider" := congrArg Prod.snd heq
          rw [h1, h2]
          exact ⟨List.mem_cons_self r rest, hs, rfl⟩
        · exact ⟨List.mem_cons_of_mem _ hm, hset, hstr⟩
      · rintro ⟨hm, hset, hstr⟩
        rcases List.mem_cons.mp hm with rfl | hm
        · left
          rw [hstr]
        · right
          exact ⟨hm, hset, hstr⟩
    | some wp =>
      cases wp with
      | mk w' pr' =>
        simp only
        rw [ih]
        constructor
        · rintro ⟨hm, hset, hstr⟩
          exact ⟨List.mem_cons_of_mem _ hm, hset, hstr⟩
        · rintro ⟨hm, hset, hstr⟩
          rcases List.mem_cons.mp hm with rfl | hm
          · rw [hs] at hset
            exact absurd hset (by simp)
          · exact ⟨hm, hset, hstr⟩
lemma settle_some_min {providers : List EdgeNode} {g : WGraph} {req : ResourceRequest}
    {w : EdgeNode} {pr : ℚ} (h : settle providers g req = some (w, pr)) :
    ∃ c, (w, c) ∈ collectBids providers req g ∧
      w.cost_for_request req g = some c ∧
      (∀ b ∈ collectBids providers req g, c ≤ b.2) ∧ c ≤ pr := by
  obtain ⟨c, tl, hs, hpr⟩ := settle_some_sorted h
  have hperm := List.mergeSort_perm (collectBids providers req g) bidLE
  rw [hs] at hperm
  have hsorted := mergeSort_bids_sorted (collectBids providers req g)
  rw [hs] at hsorted
  have hmem : (w, c) ∈ collectBids providers req g :=
    hperm.mem_iff.mp (List.mem_cons_self _ _)
  have hcost := (collectBids_mem.mp hmem).2
  refine ⟨c, hmem, hcost, ?_, ?_⟩
  · intro b hb
    have hb' : b ∈ (w, c) :: tl := (hperm.symm.mem_iff).mp hb
    rcases List.mem_cons.mp hb' with hbe | hb2
    · rw [hbe]
    · have hhb := (List.pairwise_cons.mp hsorted).1 b hb2
      simpa [bidLE] using hhb
  · cases tl with
    | nil =>
      exact le_of_eq hpr.symm
    | cons b tl2 =>
      cases b with
      | mk p2 c2 =>
        have hhb := (List.pairwise_cons.mp hsorted).1 (p2, c2) (List.mem_cons_self _ _)
        rw [hpr]
        simpa [bidLE] using hhb

/-- The comparison on rational costs used for the sorted cost list. -/
def rleB (a b : ℚ) : Bool := decide (a ≤ b)

/-- The multiset of feasible bid costs for one request, sorted ascending:
the claim's notion of lowest and second-lowest cost, a function of the
bid multiset only. -/
def sortedCosts (providers : List EdgeNode) (g : WGraph) (req : ResourceRequest) : List ℚ :=
  ((collectBids providers req g).map (fun b => b.2)).mergeSort rleB

lemma rleB_trans : ∀ a b c : ℚ, rleB a b = true → rleB b c = true → rleB a c = true := by
  intro a b c hab hbc
  simp only [rleB, decide_eq_true_eq] at hab hbc ⊢
  exact le_trans hab hbc

lemma rleB_total : ∀ a b : ℚ, (rleB a b || rleB b a) = true := by
  intro a b
  simp only [rleB, Bool.or_eq_true, decide_eq_true_eq]
  exact le_total a b

lemma sortedCosts_eq_map (providers : List EdgeNode) (g : WGraph) (req : ResourceRequest) :
    sortedCosts providers g req =
      ((collectBids providers req g).mergeSort bidLE).map (fun b => b.2) := by
  apply List.eq_of_perm_of_sorted (r := fun a b : ℚ => a ≤ b)
  · have h1 := List.mergeSort_perm ((collectBids providers req g).map (fun b => b.2)) rleB
    have h2 := (List.mergeSort_perm (collectBids providers req g) bidLE).map (fun b => b.2)
    exact h1.trans h2.symm
  · exact (List.sorted_mergeSort rleB_trans rleB_total _).imp
      (fun h => by simpa [rleB] using h)
  · rw [List.Sorted, List.pairwise_map]
    exact (mergeSort_bids_sorted _).imp (fun h => by simpa [bidLE] using h)

lemma sortedCosts_perm_inv {providers providers2 : List EdgeNode} {g : WGraph}
    {req : ResourceRequest} (hp : providers2.Perm providers) :
    sortedCosts providers2 g req = sortedCosts providers g req := by
  unfold sortedCosts
  apply List.eq_of_perm_of_sorted (r := fun a b : ℚ => a ≤ b)
  · have hb : (collectBids providers2 req g).Perm (collectBids providers req g) :=
      hp.filterMap _
    have h1 := List.mergeSort_perm ((collectBids providers2 req g).map (fun b => b.2)) rleB
    have h2 := List.mergeSort_perm ((collectBids providers req g).map (fun b => b.2)) rleB
    exact h1.trans ((hb.map _).trans h2.symm)
  · exact (List.sorted_mergeSort rleB_trans rleB_total _).imp
      (fun h => by simpa [rleB] using h)
  · exact (List.sorted_mergeSort rleB_trans rleB_total _).imp
      (fun h => by simpa [rleB] using h)

/-- C3: for every request with at least one non-refusing provider cost
bid, the Auctioneer emits an Allocation whose winner is a provider with
the minimum cost; the clearing price is the second entry of the
ascending-sorted cost list when there are at least two bids —
a function of the bid multiset only, hence independent of tie order
(any permutation of the provider list yields the same sorted cost
list) — and equals the winner's own cost when there is exactly one
bid. -/
theorem C3_second_price (requests : List ResourceRequest)
    (providers providers2 : List EdgeNode) (g : WGraph) (req : ResourceRequest)
    (hreq : req ∈ requests)
    (hbids : collectBids providers req g ≠ [])
    (hperm : providers2.Perm providers) :
    ∃ w pr c, (req, w, pr) ∈ (Auctioneer.run requests providers g).1 ∧
      w.cost_for_request req g = some c ∧ w ∈ providers ∧
      (∀ b ∈ collectBids providers req g, c ≤ b.2) ∧
      ((collectBids providers req g).length = 1 → pr = c) ∧
      (2 ≤ (collectBids providers req g).length →
        (sortedCosts providers g req).tail.head? = some pr) ∧
      sortedCosts providers2 g req = sortedCosts providers g req := by
  have hset : settle providers g req ≠ none := by
    rw [Ne, settle_eq_none_iff]
    exact hbids
  obtain ⟨wp, hwp⟩ := Option.ne_none_iff_exists'.mp hset
  cases wp with
  | mk w pr =>
    obtain ⟨c, hmem, hcost, hmin, _⟩ := settle_some_min hwp
    obtain ⟨c', tl, hs, hpr⟩ := settle_some_sorted hwp
    have hlen : (collectBids providers req g).length = tl.length + 1 := by
      have := (List.mergeSort_perm (collectBids providers req g) bidLE).length_eq
      rw [hs] at this
      rw [← this, List.length_cons]
    refine ⟨w, pr, c, auction_alloc_mem.mpr ⟨hreq, hwp⟩, hcost,
      (collectBids_mem.mp hmem).1, hmin, ?_, ?_, sortedCosts_perm_inv hperm⟩
    · intro h1
      rw [hlen] at h1
      have htl : tl = [] := List.length_eq_zero.mp (by omega)
      rw [htl] at hpr
      have hcc : c' = c := by
        have h2 := collectBids_mem.mp hmem
        have h3 : (w, c') ∈ collectBids providers req g := by
          have hp2 := List.mergeSort_perm (collectBids providers req g) bidLE
          rw [hs] at hp2
          exact hp2.mem_iff.mp (List.mem_cons_self _ _)
        have h4 := collectBids_mem.mp h3
        have := h4.2.symm.trans h2.2
        exact Option.some.inj this
      rw [hpr, hcc]
    · intro h2
      rw [hlen] at h2
      cases tl with
      | nil => simp at h2
      | cons b tl2 =>
        cases b with
        | mk p2 c2 =>
          rw [sortedCosts_eq_map, hs]
          simp only [List.map_cons, List.tail_cons, List.head?_cons]
          rw [hpr]
/-- C10: for every Allocation the Auctioneer emits, the clearing price is
greater than or equal to the winning provider's own cost bid (the price
being either the second entry of the ascending-sorted bid list or the
winner's own cost). -/
theorem C10_individual_rationality (requests : List ResourceRequest)
    (providers : List EdgeNode) (g : WGraph) (req : ResourceRequest)
    (w : EdgeNode) (pr : ℚ)
    (h : (req, w, pr) ∈ (Auctioneer.run requests providers g).1) :
    ∃ c, w.cost_for_request req g = some c ∧ c ≤ pr := by
  obtain ⟨-, hset⟩ := auction_alloc_mem.mp h
  obtain ⟨c, -, hcost, -, hle⟩ := settle_some_min hset
  exact ⟨c, hcost, hle⟩

/-- Concrete task used by the auction witnesses. -/
def wTask : IoTTask := ⟨"w", 1, 1, 1, 1, 1⟩

/-- Concrete request used by the auction witnesses. -/
def wReq : ResourceRequest := ⟨0, wTask, 7⟩

/-- Provider whose cost bid for wReq is 5. -/
def wP1 : EdgeNode := ⟨1, 10, 10, 10, 10, 5, 0, 0, 0⟩

/-- Provider whose cost bid for wReq is 8. -/
def wP2 : EdgeNode := ⟨2, 10, 10, 10, 10, 8, 0, 0, 0⟩

/-- Provider whose cost bid for wReq is 12. -/
def wP3 : EdgeNode := ⟨3, 10, 10, 10, 10, 12, 0, 0, 0⟩

/-- The provider list for the auction witnesses. -/
def wProviders : List EdgeNode := [wP1, wP2, wP3]

/-- Topology for the auction witnesses: the consumer 0 has weight-0 edges
to each provider. -/
def wGraphA : WGraph := ⟨[(0, 1, 0), (0, 2, 0), (0, 3, 0)]⟩

lemma wBids_eval : collectBids wProviders wReq wGraphA = [(wP1, 5), (wP2, 8), (wP3, 12)] := by
  with_unfolding_all decide

lemma wSettle_eval : settle wProviders wGraphA wReq = some (wP1, 8) := by
  unfold settle
  rw [wBids_eval, List.mergeSort_of_sorted]
  decide

/-- Witness for C3_second_price on the spec section 8 bid profile
[(P1,5),(P2,8),(P3,12)]: winner P1, clearing price 8. -/
theorem C3_second_price_witness :
    ∃ w pr c, (wReq, w, pr) ∈ (Auctioneer.run [wReq] wProviders wGraphA).1 ∧
      w.cost_for_request wReq wGraphA = some c ∧ w ∈ wProviders ∧
      (∀ b ∈ collectBids wProviders wReq wGraphA, c ≤ b.2) ∧
      ((collectBids wProviders wReq wGraphA).length = 1 → pr = c) ∧
      (2 ≤ (collectBids wProviders wReq wGraphA).length →
        (sortedCosts wProviders wGraphA wReq).tail.head? = some pr) ∧
      sortedCosts [wP3, wP2, wP1] wGraphA wReq = sortedCosts wProviders wGraphA wReq :=
  C3_second_price [wReq] wProviders [wP3, wP2, wP1] wGraphA wReq
    (List.mem_singleton.mpr rfl)
    (by rw [wBids_eval]; exact List.cons_ne_nil _ _)
    (by with_unfolding_all decide)

/-- Witness for C10_individual_rationality: in the concrete auction the
winner wP1 bid 5 and is paid 8 ≥ 5. -/
theorem C10_individual_rationality_witness :
    ((wReq, wP1, 8) ∈ (Auctioneer.run [wReq] wProviders wGraphA).1) ∧
    ∃ c, wP1.cost_for_request wReq wGraphA = some c ∧ c ≤ 8 := by
  have hmem : (wReq, wP1, (8 : ℚ)) ∈ (Auctioneer.run [wReq] wProviders wGraphA).1 :=
    auction_alloc_mem.mpr ⟨List.mem_singleton.mpr rfl, wSettle_eval⟩
  exact ⟨hmem, C10_individual_rationality [wReq] wProviders wGraphA wReq wP1 8 hmem⟩
/-! ### Noninterference of bid values -/

/-- Two requests that agree on everything except the bid value. -/
def sameModuloBid (r1 r2 : ResourceRequest) : Prop :=
  r1.device_id = r2.device_id ∧ r1.task = r2.task

lemma cost_for_request_congr {p : EdgeNode} {r1 r2 : ResourceRequest} {g : WGraph}
    (h : sameModuloBid r1 r2) :
    p.cost_for_request r1 g = p.cost_for_request r2 g := by
  unfold EdgeNode.cost_for_request
  rw [h.1, h.2]

lemma collectBids_congr {providers : List EdgeNode} {r1 r2 : ResourceRequest} {g : WGraph}
    (h : sameModuloBid r1 r2) :
    collectBids providers r1 g = collectBids providers r2 g := by
  unfold collectBids
  congr 1
  funext p
  rw [cost_for_request_congr h]

lemma settle_congr {providers : List EdgeNode} {g : WGraph} {r1 r2 : ResourceRequest}
    (h : sameModuloBid r1 r2) :
    settle providers g r1 = settle providers g r2 := by
  unfold settle
  rw [collectBids_congr h]

/-- C9: for two batches of requests identical except for the bid_value
fields, the Auctioneer produces the same winners, the same clearing
prices, and correspondingly identical rejections; bid_value never
influences who wins or what is paid. -/
theorem C9_noninterference (requests1 requests2 : List ResourceRequest)
    (providers : List EdgeNode) (g : WGraph)
    (h : List.Forall₂ sameModuloBid requests1 requests2) :
    ((Auctioneer.run requests1 providers g).1.map (fun a => (a.2.1, a.2.2)) =
      (Auctioneer.run requests2 providers g).1.map (fun a => (a.2.1, a.2.2))) ∧
    List.Forall₂ (fun a b => sameModuloBid a.1 b.1 ∧ a.2 = b.2)
      (Auctioneer.run requests1 providers g).1 (Auctioneer.run requests2 providers g).1 ∧
    List.Forall₂ (fun a b => sameModuloBid a.1 b.1 ∧ a.2 = b.2)
      (Auctioneer.run requests1 providers g).2 (Auctioneer.run requests2 providers g).2 := by
  induction h with
  | nil =>
    exact ⟨rfl, List.Forall₂.nil, List.Forall₂.nil⟩
  | cons hr htl ih =>
    rename_i r1 r2 t1 t2
    obtain ⟨ihmap, iha, ihr⟩ := ih
    rw [Auctioneer.run, Auctioneer.run]
    rw [settle_congr hr]
    cases hs : settle providers g r2 with
    | none =>
      simp only
      exact ⟨ihmap, iha, List.Forall₂.cons ⟨hr, rfl⟩ ihr⟩
    | some wp =>
      cases wp with
      | mk w pr =>
        simp only
        refine ⟨?_, List.Forall₂.cons ⟨hr, rfl⟩ iha, ihr⟩
        simp only [List.map_cons]
        rw [ihmap]
/-- Request differing from wReq only in the bid value (99 instead of 7). -/
def wReqAlt : ResourceRequest := ⟨0, wTask, 99⟩

/-- Witness for C9_noninterference: one-request batches differing only in
bid value. -/
theorem C9_noninterference_witness :
    List.Forall₂ sameModuloBid [wReq] [wReqAlt] ∧
    (((Auctioneer.run [wReq] wProviders wGraphA).1.map (fun a => (a.2.1, a.2.2)) =
       (Auctioneer.run [wReqAlt] wProviders wGraphA).1.map (fun a => (a.2.1, a.2.2))) ∧
     List.Forall₂ (fun a b => sameModuloBid a.1 b.1 ∧ a.2 = b.2)
       (Auctioneer.run [wReq] wProviders wGraphA).1
       (Auctioneer.run [wReqAlt] wProviders wGraphA).1 ∧
     List.Forall₂ (fun a b => sameModuloBid a.1 b.1 ∧ a.2 = b.2)
       (Auctioneer.run [wReq] wProviders wGraphA).2
       (Auctioneer.run [wReqAlt] wProviders wGraphA).2) :=
  ⟨List.Forall₂.cons ⟨rfl, rfl⟩ List.Forall₂.nil,
   C9_noninterference [wReq] [wReqAlt] wProviders wGraphA
     (List.Forall₂.cons ⟨rfl, rfl⟩ List.Forall₂.nil)⟩

/-! ### Applying allocations: conservation and frame lemmas -/

lemma applyAllocation_parts {st st1 : SysState} {req : ResourceRequest} {w : EdgeNode}
    {pr : ℚ} (h : applyAllocation st (req, w, pr) = some st1) :
    ∃ dev, st.devices.find? (fun d => d.id == req.device_id) = some dev ∧
      req.task ∈ dev.pending_tasks ∧ dev ∈ st.devices ∧ dev.id = req.device_id ∧
      st1.nodes = st.nodes.map (fun n => if n.id = w.id then n.allocate req else n) ∧
      st1.devices = st.devices.map (fun d =>
        if d.id = dev.id then { d with pending_tasks := d.pending_tasks.erase req.task }
        else d) ∧
      st1.welfare = st.welfare + req.bid_value - pr := by
  unfold applyAllocation at h
  dsimp only at h
  cases hf : st.devices.find? (fun d => d.id == req.device_id) with
  | none =>
    rw [hf] at h
    exact absurd h (by simp)
  | some dev =>
    rw [hf] at h
    dsimp only at h
    by_cases hmem : req.task ∈ dev.pending_tasks
    · rw [if_pos hmem] at h
      have hst := Option.some.inj h
      have hid : dev.id = req.device_id := by
        have := List.find?_some hf
        simpa using this
      exact ⟨dev, rfl, hmem, List.mem_of_find?_eq_some hf, hid,
        by rw [← hst], by rw [← hst], by rw [← hst]⟩
    · rw [if_neg hmem] at h
      exact absurd h (by simp)

/-- C7: applying a single allocation decreases the winning provider's
available cpu and memory by exactly the task's demands and changes no
other provider field and no other provider; it removes one occurrence of
the allocated task from the owning consumer's pending queue, leaving
every other pending task (and every other consumer) in place. -/
theorem C7_conservation_frame (st st1 : SysState) (req : ResourceRequest)
    (w : EdgeNode) (pr : ℚ)
    (hnodup : (st.nodes.map EdgeNode.id).Nodup)
    (hdevnodup : (st.devices.map IoTDevice.id).Nodup)
    (h : applyAllocation st (req, w, pr) = some st1) :
    st1.nodes.length = st.nodes.length ∧
    (∀ n ∈ st.nodes, n.id = w.id →
      ∃ n' ∈ st1.nodes, n'.id = n.id ∧
        n'.available_cpu = n.available_cpu - req.task.cpu ∧
        n'.available_memory = n.available_memory - req.task.memory ∧
        n'.capacity_cpu = n.capacity_cpu ∧ n'.capacity_memory = n.capacity_memory ∧
        n'.base_price_cpu = n.base_price_cpu ∧
        n'.base_price_memory = n.base_price_memory ∧
        n'.energy_price = n.energy_price ∧ n'.power_per_cpu = n.power_per_cpu) ∧
    (∀ n ∈ st.nodes, n.id ≠ w.id → n ∈ st1.nodes) ∧
    st1.devices.length = st.devices.length ∧
    (∃ dev ∈ st.devices, dev.id = req.device_id ∧ req.task ∈ dev.pending_tasks ∧
      ∃ d' ∈ st1.devices, d'.id = dev.id ∧
        d'.pending_tasks = dev.pending_tasks.erase req.task ∧
        d'.pending_tasks.length + 1 = dev.pending_tasks.length ∧
        (∀ τ ∈ dev.pending_tasks, τ ≠ req.task → τ ∈ d'.pending_tasks) ∧
        d'.dev_type = dev.dev_type ∧ d'.energy_budget = dev.energy_budget) ∧
    (∀ d ∈ st.devices, d.id ≠ req.device_id → d ∈ st1.devices) := by
  obtain ⟨dev, hfind, hmem, hdev, hid, hnodes, hdevs, hwelf⟩ := applyAllocation_parts h
  refine ⟨by rw [hnodes, List.length_map], ?_, ?_, by rw [hdevs, List.length_map], ?_, ?_⟩
  · intro n hn hnw
    refine ⟨n.allocate req, ?_, rfl, rfl, rfl, rfl, rfl, rfl, rfl, rfl, rfl⟩
    rw [hnodes]
    exact List.mem_map.mpr ⟨n, hn, by simp [hnw]⟩
  · intro n hn hnw
    rw [hnodes]
    exact List.mem_map.mpr ⟨n, hn, by simp [hnw]⟩
  · refine ⟨dev, hdev, hid, hmem,
      { dev with pending_tasks := dev.pending_tasks.erase req.task }, ?_, rfl, rfl, ?_, ?_, rfl, rfl⟩
    · rw [hdevs]
      exact List.mem_map.mpr ⟨dev, hdev, by simp⟩
    · show (dev.pending_tasks.erase req.task).length + 1 = dev.pending_tasks.length
      have := List.length_erase_of_mem hmem
      have hlen : 1 ≤ dev.pending_tasks.length := List.length_pos.mpr
        (List.ne_nil_of_mem hmem)
      omega
    · intro τ hτ hne
      exact (List.mem_erase_of_ne hne).mpr hτ
  · intro d hd hne
    rw [hdevs]
    have hne2 : ¬ d.id = dev.id := fun hh => hne (hh.trans hid)
    exact List.mem_map.mpr ⟨d, hd, by simp [hne2]⟩
/-- Concrete state for the C7 witness: one provider, one consumer with
one pending task. -/
def c7Node : EdgeNode := EdgeNode.init 0 10 10

/-- Task for the C7 witness. -/
def c7Task : IoTTask := ⟨"c7", 2, 3, 1, 1, 1⟩

/-- Consumer for the C7 witness. -/
def c7Dev : IoTDevice := ⟨1, "generic", 100, [c7Task]⟩

/-- Initial state for the C7 witness. -/
def c7State : SysState := ⟨[c7Node], [c7Dev], 0⟩

/-- Request for the C7 witness. -/
def c7Req : ResourceRequest := ⟨1, c7Task, 4⟩

/-- State after applying the C7 witness allocation at price 1. -/
def c7StateAfter : SysState :=
  ⟨[⟨0, 10, 10, 8, 7, 0.2, 0.05, 0.01, 2⟩], [⟨1, "generic", 100, []⟩], 3⟩

/-- Witness for C7_conservation_frame on the concrete one-provider,
one-consumer state. -/
theorem C7_conservation_frame_witness :
    (applyAllocation c7State (c7Req, c7Node, 1) = some c7StateAfter) ∧
    (c7StateAfter.nodes.length = c7State.nodes.length ∧
     (∀ n ∈ c7State.nodes, n.id = c7Node.id →
       ∃ n' ∈ c7StateAfter.nodes, n'.id = n.id ∧
         n'.available_cpu = n.available_cpu - c7Req.task.cpu ∧
         n'.available_memory = n.available_memory - c7Req.task.memory ∧
         n'.capacity_cpu = n.capacity_cpu ∧ n'.capacity_memory = n.capacity_memory ∧
         n'.base_price_cpu = n.base_price_cpu ∧
         n'.base_price_memory = n.base_price_memory ∧
         n'.energy_price = n.energy_price ∧ n'.power_per_cpu = n.power_per_cpu) ∧
     (∀ n ∈ c7State.nodes, n.id ≠ c7Node.id → n ∈ c7StateAfter.nodes) ∧
     c7StateAfter.devices.length = c7State.devices.length ∧
     (∃ dev ∈ c7State.devices, dev.id = c7Req.device_id ∧ c7Req.task ∈ dev.pending_tasks ∧
       ∃ d' ∈ c7StateAfter.devices, d'.id = dev.id ∧
         d'.pending_tasks = dev.pending_tasks.erase c7Req.task ∧
         d'.pending_tasks.length + 1 = dev.pending_tasks.length ∧
         (∀ τ ∈ dev.pending_tasks, τ ≠ c7Req.task → τ ∈ d'.pending_tasks) ∧
         d'.dev_type = dev.dev_type ∧ d'.energy_budget = dev.energy_budget) ∧
     (∀ d ∈ c7State.devices, d.id ≠ c7Req.device_id → d ∈ c7StateAfter.devices)) :=
  ⟨by with_unfolding_all decide,
   C7_conservation_frame c7State c7StateAfter c7Req c7Node 1 (by decide) (by decide)
     (by with_unfolding_all decide)⟩

lemma task_persists {allocs : List (ResourceRequest × EdgeNode × ℚ)} :
    ∀ {st st' : SysState} {τ : IoTTask} {d : IoTDevice},
      applyAllocations st allocs = some st' →
      (∀ a ∈ allocs, a.1.task ≠ τ) →
      d ∈ st.devices → τ ∈ d.pending_tasks →
      ∃ d' ∈ st'.devices, d'.id = d.id ∧ τ ∈ d'.pending_tasks := by
  induction allocs with
  | nil =>
    intro st st' τ d h _ hd hτ
    have hst : st = st' := by
      simpa [applyAllocations] using h
    rw [← hst]
    exact ⟨d, hd, rfl, hτ⟩
  | cons a rest ih =>
    intro st st' τ d h hτa hd hτ
    rw [applyAllocations] at h
    cases ha : applyAllocation st a with
    | none =>
      rw [ha] at h
      exact absurd h (by simp)
    | some st1 =>
      rw [ha] at h
      simp only [Option.some_bind] at h
      obtain ⟨req, w, pr⟩ := a
      obtain ⟨dev, hfind, hmem, hdev, hid, hnodes, hdevs, hwelf⟩ := applyAllocation_parts ha
      have hne : τ ≠ req.task :=
        (hτa (req, w, pr) (List.mem_cons_self _ _)).symm
      by_cases hdd : d.id = dev.id
      · have hd1 : ({ d with pending_tasks := d.pending_tasks.erase req.task } : IoTDevice)
            ∈ st1.devices := by
          rw [hdevs]
          exact List.mem_map.mpr ⟨d, hd, by simp [hdd]⟩
        have hτ1 : τ ∈ d.pending_tasks.erase req.task :=
          (List.mem_erase_of_ne hne).mpr hτ
        obtain ⟨d', hd', hid', hτ'⟩ :=
          ih h (fun b hb => hτa b (List.mem_cons_of_mem _ hb)) hd1 hτ1
        exact ⟨d', hd', hid', hτ'⟩
      · have hd1 : d ∈ st1.devices := by
          rw [hdevs]
          exact List.mem_map.mpr ⟨d, hd, by simp [hdd]⟩
        exact ih h (fun b hb => hτa b (List.mem_cons_of_mem _ hb)) hd1 hτ

/-- C6: for every request that every provider refuses, the Auctioneer
emits a Rejection with reason "no provider" and no Allocation for that
request, and (provided the request is the only one carrying its task)
the task survives the application of the round's allocations in its
owning consumer's pending queue, so it is re-bid next round. -/
theorem C6_no_provider (st : SysState) (g : WGraph) (requests : List ResourceRequest)
    (req : ResourceRequest) (st' : SysState) (d : IoTDevice)
    (hreq : req ∈ requests)
    (hall : ∀ p ∈ st.nodes, p.cost_for_request req g = none)
    (huniq : ∀ r ∈ requests, r.task = req.task → r = req)
    (happly : applyAllocations st (Auctioneer.run requests st.nodes g).1 = some st')
    (hd : d ∈ st.devices) (hdt : req.task ∈ d.pending_tasks) :
    (req, "no provider") ∈ (Auctioneer.run requests st.nodes g).2 ∧
    (∀ w pr, (req, w, pr) ∉ (Auctioneer.run requests st.nodes g).1) ∧
    ∃ d' ∈ st'.devices, d'.id = d.id ∧ req.task ∈ d'.pending_tasks := by
  have hsettle : settle st.nodes g req = none :=
    settle_eq_none_iff.mpr (collectBids_eq_nil_iff.mpr hall)
  refine ⟨auction_rej_mem.mpr ⟨hreq, hsettle, rfl⟩, ?_, ?_⟩
  · intro w pr hmem
    have hset := (auction_alloc_mem.mp hmem).2
    rw [hsettle] at hset
    exact absurd hset (by simp)
  · refine task_persists happly ?_ hd hdt
    intro a ha hta
    have ha' : (a.1, a.2.1, a.2.2) ∈ (Auctioneer.run requests st.nodes g).1 := by
      simpa using ha
    obtain ⟨hm, hset⟩ := auction_alloc_mem.mp ha'
    have heq : a.1 = req := huniq a.1 hm hta
    rw [heq, hsettle] at hset
    exact absurd hset (by simp)

/-- Provider with zero availability for the C6 witness: it refuses every
request. -/
def c6Node : EdgeNode := ⟨0, 10, 10, 0, 0, 0.2, 0.05, 0.01, 2⟩

/-- Task for the C6 witness. -/
def c6Task : IoTTask := ⟨"c6", 1, 1, 1, 1, 1⟩

/-- Request for the C6 witness. -/
def c6Req : ResourceRequest := ⟨1, c6Task, 3⟩

/-- Consumer owning the C6 witness task. -/
def c6Dev : IoTDevice := ⟨1, "sensor", 100, [c6Task]⟩

/-- State for the C6 witness. -/
def c6State : SysState := ⟨[c6Node], [c6Dev], 0⟩

/-- Topology for the C6 witness. -/
def c6Graph : WGraph := ⟨[(1, 0, 1)]⟩

/-- Witness for C6_no_provider: the only provider has no capacity left,
so the single request is rejected and its task stays pending. -/
theorem C6_no_provider_witness :
    (∀ p ∈ c6State.nodes, p.cost_for_request c6Req c6Graph = none) ∧
    ((c6Req, "no provider") ∈ (Auctioneer.run [c6Req] c6State.nodes c6Graph).2 ∧
     (∀ w pr, (c6Req, w, pr) ∉ (Auctioneer.run [c6Req] c6State.nodes c6Graph).1) ∧
     ∃ d' ∈ c6State.devices, d'.id = c6Dev.id ∧ c6Req.task ∈ d'.pending_tasks) := by
  have hall : ∀ p ∈ c6State.nodes, p.cost_for_request c6Req c6Graph = none := by
    with_unfolding_all decide
  have hsettle : settle c6State.nodes c6Graph c6Req = none :=
    settle_eq_none_iff.mpr (collectBids_eq_nil_iff.mpr hall)
  have hrun1 : (Auctioneer.run [c6Req] c6State.nodes c6Graph).1 = [] := by
    simp only [Auctioneer.run, hsettle]
  have happly : applyAllocations c6State (Auctioneer.run [c6Req] c6State.nodes c6Graph).1 =
      some c6State := by
    rw [hrun1]
    rfl
  exact ⟨hall,
    C6_no_provider c6State c6Graph [c6Req] c6Req c6State c6Dev
      (List.mem_singleton.mpr rfl) hall (by decide) happly
      (List.mem_singleton.mpr rfl) (List.mem_singleton.mpr rfl)⟩
/-! ### Consumer bid construction -/

lemma buildLoop_eval {mexp : ℚ → ℚ} {dev : IoTDevice} {g : WGraph}
    {providers : List EdgeNode} {bl : ℚ}
    (hmin : (dev.connectedWeights g providers).min? = some bl) :
    ∀ tasks, buildLoop mexp dev g providers tasks =
      some (tasks.map (fun task =>
        ⟨dev.id, task,
          task.priority * (task.cpu + task.memory) *
            mexp (-(bl + task.cpu / 10) / task.deadline) - bl * 0.1⟩)) := by
  intro tasks
  induction tasks with
  | nil => rfl
  | cons t rest ih =>
    rw [buildLoop, hmin, ih]
    rfl

/-- C8: for every consumer with at least one directly connected
provider, build_requests produces exactly one request per pending task,
whose bid value is priority · (cpu + memory) · exp(−(best_latency +
cpu/10) / deadline) − best_latency·0.1, where best_latency is the
minimum direct edge weight over the directly connected providers
(providers without a direct edge are excluded; no shortest path is
taken). -/
theorem C8_bid_value (mexp : ℚ → ℚ) (dev : IoTDevice) (g : WGraph)
    (providers : List EdgeNode)
    (hconn : dev.connectedWeights g providers ≠ []) :
    ∃ bl, (dev.connectedWeights g providers).min? = some bl ∧
      bl ∈ dev.connectedWeights g providers ∧
      (∀ x ∈ dev.connectedWeights g providers, bl ≤ x) ∧
      dev.build_requests mexp g providers =
        some (dev.pending_tasks.map (fun task =>
          ⟨dev.id, task,
            task.priority * (task.cpu + task.memory) *
              mexp (-(bl + task.cpu / 10) / task.deadline) - bl * 0.1⟩)) := by
  obtain ⟨bl, hbl⟩ : ∃ bl, (dev.connectedWeights g providers).min? = some bl := by
    cases hm : (dev.connectedWeights g providers).min? with
    | none => exact absurd (List.min?_eq_none_iff.mp hm) hconn
    | some b => exact ⟨b, rfl⟩
  obtain ⟨hmem, hle⟩ := min?_spec hbl
  exact ⟨bl, hbl, hmem, hle, buildLoop_eval hbl dev.pending_tasks⟩

/-- Task for the C8 witness. -/
def c8Task : IoTTask := ⟨"c8", 1, 2, 1, 1, 3⟩

/-- Consumer for the C8 witness, directly connected to one provider with
edge weight 2. -/
def c8Dev : IoTDevice := ⟨1, "sensor", 100, [c8Task]⟩

/-- Topology for the C8 witness. -/
def c8Graph : WGraph := ⟨[(1, 0, 2)]⟩

/-- Witness for C8_bid_value at a concrete device, graph and provider
list, with the exponential modelled by the constant-1 function. -/
theorem C8_bid_value_witness :
    (c8Dev.connectedWeights c8Graph [c7Node] ≠ []) ∧
    ∃ bl, (c8Dev.connectedWeights c8Graph [c7Node]).min? = some bl ∧
      bl ∈ c8Dev.connectedWeights c8Graph [c7Node] ∧
      (∀ x ∈ c8Dev.connectedWeights c8Graph [c7Node], bl ≤ x) ∧
      c8Dev.build_requests (fun _ => 1) c8Graph [c7Node] =
        some (c8Dev.pending_tasks.map (fun task =>
          ⟨c8Dev.id, task,
            task.priority * (task.cpu + task.memory) *
              (fun _ : ℚ => (1 : ℚ)) (-(bl + task.cpu / 10) / task.deadline) - bl * 0.1⟩)) :=
  ⟨by with_unfolding_all decide,
   C8_bid_value (fun _ => 1) c8Dev c8Graph [c7Node] (by with_unfolding_all decide)⟩

/-! ### C2: isolated consumer -/

/-- Consumer for C2 with a pending task but no direct edge to any
provider. -/
def c2Dev : IoTDevice := ⟨1, "generic", 100, [⟨"c2", 1, 1, 1, 1, 1⟩]⟩

/-- Empty topology for C2. -/
def c2Graph : WGraph := ⟨[]⟩

/-- C2 (failing input): a consumer with a pending task and no direct
edge to any provider makes build_requests raise — min() of an empty
sequence is a ValueError — rather than yielding no request: the
embedding returns none, the escaped-exception marker, refuting the
no-crash claim. -/
theorem C2_isolated_consumer_crash :
    c2Dev.connectedWeights c2Graph [c7Node] = [] ∧
    c2Dev.pending_tasks ≠ [] ∧
    IoTDevice.build_requests (fun _ => 1) c2Dev c2Graph [c7Node] = none := by
  refine ⟨rfl, ?_, rfl⟩
  intro h
  exact absurd h (by decide)
/-! ### C1: the capacity invariant is violated by same-round allocations -/

/-- First task of the C1 failing input: cpu demand 6 of capacity 10. -/
def c1Task1 : IoTTask := ⟨"t1", 6, 1, 1, 1, 1⟩

/-- Second task of the C1 failing input, same demands. -/
def c1Task2 : IoTTask := ⟨"t2", 6, 1, 1, 1, 1⟩

/-- Single provider of the C1 failing input, capacity (10, 10), fully
available. -/
def c1Node : EdgeNode := EdgeNode.init 0 10 10

/-- Consumer of the C1 failing input, with both tasks pending. -/
def c1Dev : IoTDevice := ⟨1, "generic", 100, [c1Task1, c1Task2]⟩

/-- Topology of the C1 failing input: one direct edge of weight 1. -/
def c1Graph : WGraph := ⟨[(1, 0, 1)]⟩

/-- Initial state of the C1 failing input. -/
def c1State : SysState := ⟨[c1Node], [c1Dev], 0⟩

/-- Request built for the first C1 task (bid computed with the
constant-1 exponential: 1·(6+1)·1 − 1·0.1 = 6.9). -/
def c1Req1 : ResourceRequest := ⟨1, c1Task1, 69/10⟩

/-- Request built for the second C1 task. -/
def c1Req2 : ResourceRequest := ⟨1, c1Task2, 69/10⟩

/-- Provider state after the round: available cpu −2 violates the
invariant. -/
def c1NodeAfter : EdgeNode := ⟨0, 10, 10, -2, 8, 0.2, 0.05, 0.01, 2⟩

/-- System state after the round. -/
def c1StateAfter : SysState := ⟨[c1NodeAfter], [⟨1, "generic", 100, []⟩], 543/50⟩

lemma c1_requests_eval :
    collectRequests (fun _ => 1) c1Graph [c1Node] [c1Dev] = some [c1Req1, c1Req2] := by
  with_unfolding_all decide

lemma c1_bids1_eval : collectBids [c1Node] c1Req1 c1Graph = [(c1Node, 147/100)] := by
  with_unfolding_all decide

lemma c1_bids2_eval : collectBids [c1Node] c1Req2 c1Graph = [(c1Node, 147/100)] := by
  with_unfolding_all decide

lemma c1_settle1_eval : settle [c1Node] c1Graph c1Req1 = some (c1Node, 147/100) := by
  unfold settle
  rw [c1_bids1_eval, List.mergeSort_singleton]

lemma c1_settle2_eval : settle [c1Node] c1Graph c1Req2 = some (c1Node, 147/100) := by
  unfold settle
  rw [c1_bids2_eval, List.mergeSort_singleton]

lemma c1_auction_eval :
    Auctioneer.run [c1Req1, c1Req2] [c1Node] c1Graph =
      ([(c1Req1, c1Node, 147/100), (c1Req2, c1Node, 147/100)], []) := by
  simp only [Auctioneer.run, c1_settle1_eval, c1_settle2_eval]

set_option maxRecDepth 4000 in
/-- C1 (failing input): with the provider fully available at costing
time, both same-round requests are cleared; applying them in sequence
drives available.cpu to −2 < 0 and no allocation is downgraded to a
rejection — the loop performs no feasibility re-check at application
time, violating the capacity invariant. -/
theorem C1_capacity_violation :
    runRound (fun _ => 1) c1State c1Graph =
      some (c1StateAfter, [(c1Req1, c1Node, 147/100), (c1Req2, c1Node, 147/100)], []) ∧
    c1NodeAfter.available_cpu < 0 ∧
    c1NodeAfter.available_cpu = c1Node.available_cpu - c1Task1.cpu - c1Task2.cpu ∧
    0 ≤ c1Node.available_cpu - c1Task1.cpu ∧
    ¬ (∀ n ∈ c1StateAfter.nodes, 0 ≤ n.available_cpu) := by
  refine ⟨?_, by decide, by with_unfolding_all decide, by with_unfolding_all decide, ?_⟩
  · unfold runRound
    have hnodes : c1State.nodes = [c1Node] := rfl
    have hdevs : c1State.devices = [c1Dev] := rfl
    rw [hnodes, hdevs, c1_requests_eval]
    rw [Option.some_bind]
    rw [c1_auction_eval]
    dsimp only
    have happ : applyAllocations c1State [(c1Req1, c1Node, 147/100), (c1Req2, c1Node, 147/100)] =
        some c1StateAfter := by with_unfolding_all decide
    rw [happ]
    rfl
  · intro h
    have := h c1NodeAfter (List.mem_singleton.mpr rfl)
    exact absurd this (by decide)
